/-
Verification of the isolation-forest anomaly detector (`anomdet/iforest.py`).

The embedding mirrors the source module:
  * `ITreeNode` is the node variant (`ITreeLeaf` / `ITreeNode` classes);
  * `ITree.grow` is `ITree._grow`, with the numpy `RandomState` modelled as an
    explicit stream state `Rng` threaded through every call in program order;
  * `path_length_and_leaf_size` is `ITree.path_length_and_leaf_size`;
  * `_adjustment` is the module-level `_adjustment`, over the reals;
  * `IForest.fit` / `IForest.predict` are the ensemble methods.

Data values, thresholds and the `subsample_size` configuration live in a
linearly ordered field `α` (instantiated at ℚ for executable checks and at ℝ
for the analytic score claims).  Matrices are lists of rows, a row being a
list of feature values; `row.getD j 0` models the in-bounds access `x[j]`
(every access performed by the source is in bounds for a rectangular matrix,
since the split attribute is drawn below the column count).
-/
import Mathlib

set_option maxHeartbeats 1000000

namespace AnomDet

variable {α : Type} [LinearOrderedField α]

/-- The numpy `RandomState`, modelled as pre-drawn output streams plus a
counter of draws consumed so far.  `ints k` is the value produced by the
`randint` call made at step `k` (reduced modulo the bound), `reals k` the
value produced by `random_sample` at step `k` (a well-formed generator keeps
it in `[0, 1)`), and `perms k m` the list produced by `permutation(m)` at
step `k` (a well-formed generator makes it a permutation of `0, …, m-1`).
Each draw advances the shared counter, so the consumption order of the
single shared generator is captured exactly. -/
structure Rng (α : Type) where
  ints : ℕ → ℕ
  reals : ℕ → α
  perms : ℕ → ℕ → List ℕ
  k : ℕ

/-- Model of `random_state.randint(n)`: an integer in `[0, n)` (for `n > 0`). -/
def Rng.randint (n : ℕ) (s : Rng α) : ℕ × Rng α :=
  (s.ints s.k % n, { s with k := s.k + 1 })

/-- Model of `random_state.random_sample()`: one draw from `[0, 1)`. -/
def Rng.random_sample (s : Rng α) : α × Rng α :=
  (s.reals s.k, { s with k := s.k + 1 })

/-- Model of `random_state.permutation(m)`: a permutation of `0, …, m-1`. -/
def Rng.permutation (m : ℕ) (s : Rng α) : List ℕ × Rng α :=
  (s.perms s.k m, { s with k := s.k + 1 })

/-- The node variant: `ITreeLeaf(size)` or `ITreeNode(split_att, split_value)`
with its two inserted children. -/
inductive ITreeNode (α : Type) where
  | leaf (size : ℕ)
  | node (split_attribute : ℕ) (split_value : α) (left right : ITreeNode α)
deriving DecidableEq

/-- Model of `min(X[:, j])` — the minimum of column `j`, folded from the first row as
Python's `min` does.  Only called on non-empty `X` by the source. -/
def colMin (X : List (List α)) (j : ℕ) : α :=
  match X with
  | [] => 0
  | r :: rs => rs.foldl (fun acc row => min acc (row.getD j 0)) (r.getD j 0)

/-- Model of `max(X[:, j])` — the maximum of column `j`. -/
def colMax (X : List (List α)) (j : ℕ) : α :=
  match X with
  | [] => 0
  | r :: rs => rs.foldl (fun acc row => max acc (row.getD j 0)) (r.getD j 0)

/-- Model of `ITree._grow(X, current_height, height_limit)`.  If the height limit is
reached or at most one row remains, a leaf storing the row count; otherwise
draw a split attribute with `randint(n)`, take the column extremes `a`, `b`,
draw `split_value = a + (b-a) * random_sample()`, partition into the rows
with feature value `< split_value` (left) and `>= split_value` (right), and
grow both children at `current_height + 1`, threading the shared generator
through the left child before the right one. -/
def ITree.grow (s : Rng α) (X : List (List α)) (current_height height_limit : ℕ) :
    ITreeNode α × Rng α :=
  if h : current_height ≥ height_limit ∨ X.length ≤ 1 then
    (ITreeNode.leaf X.length, s)
  else
    let n := (X.headD []).length
    let split_att := (Rng.randint n s).1
    let s1 := (Rng.randint n s).2
    let a := colMin X split_att
    let b := colMax X split_att
    let u := (Rng.random_sample s1).1
    let s2 := (Rng.random_sample s1).2
    let split_value := a + (b - a) * u
    let X_left := X.filter (fun r => r.getD split_att 0 < split_value)
    let X_right := X.filter (fun r => split_value ≤ r.getD split_att 0)
    let gl := ITree.grow s2 X_left (current_height + 1) height_limit
    let gr := ITree.grow gl.2 X_right (current_height + 1) height_limit
    (ITreeNode.node split_att split_value gl.1 gr.1, gr.2)
termination_by height_limit - current_height
decreasing_by
  all_goals (push_neg at h; omega)

/-- Model of `ITree.path_length_and_leaf_size(x)`: walk from the root, going right
when `x[split_attribute] >= split_value` (the `compare` method), counting one
per internal node visited, and return the count with the reached leaf's
size. -/
def path_length_and_leaf_size (t : ITreeNode α) (x : List α) : ℕ × ℕ :=
  match t with
  | ITreeNode.leaf size => (0, size)
  | ITreeNode.node att v l r =>
    if v ≤ x.getD att 0 then
      let res := path_length_and_leaf_size r x
      (res.1 + 1, res.2)
    else
      let res := path_length_and_leaf_size l x
      (res.1 + 1, res.2)

/-- The module-level `_adjustment(n)`: `0` for `n <= 1`, `1` for `n == 2`, and
`2 * (np.log(n-1) + 0.5772156649) - 2*(n-1)/n` otherwise, over the reals. -/
noncomputable def _adjustment (n : ℕ) : ℝ :=
  if n ≤ 1 then 0
  else if n = 2 then 1
  else 2 * (Real.log ((n : ℝ) - 1) + 0.5772156649) - 2 * ((n : ℝ) - 1) / (n : ℝ)

/-- The `IForest` object: hyperparameters from `__init__`, plus the state the
methods store on `self` (`trees`, `height_limit`, and `psi`, the latter two
`Option`al because `height_limit` may be configured `None` and `psi` is only
set by `fit`).  The generator is not a field: it is passed to `fit`
explicitly as the threaded `Rng` state. -/
structure IForest (α : Type) where
  num_trees : ℕ
  subsample_size : α
  trees : List (ITreeNode α)
  height_limit : Option ℕ
  psi : Option ℕ

/-- The subsample-size resolution at the top of `IForest.fit`:
`psi = int(np.ceil(subsample_size * m))` when `subsample_size <= 1.0`, and
`psi = subsample_size` unchanged (no cast, no validation) otherwise. -/
def resolvePsi [FloorRing α] (subsample_size : α) (m : ℕ) : α :=
  if subsample_size ≤ 1 then ((⌈subsample_size * (m : α)⌉ : ℤ) : α)
  else subsample_size

/-- The tree-building loop of `IForest.fit`: `count` remaining iterations;
each iteration draws `permutation(numdata)`, keeps the first `psi` indices,
extracts those rows, and grows one tree of height limit `hl`, consuming the
single shared generator in loop order. -/
def buildTrees (X : List (List α)) (psi hl : ℕ) :
    ℕ → Rng α → List (ITreeNode α) × Rng α
  | 0, s => ([], s)
  | count + 1, s =>
    let pm := Rng.permutation X.length s
    let sample_ind := pm.1.take psi
    let X_sample := sample_ind.map (fun i => X.getD i [])
    let g := ITree.grow pm.2 X_sample 0 hl
    let rest := buildTrees X psi hl count g.2
    (g.1 :: rest.1, rest.2)

/-- Model of `IForest.fit(X)`: resolve `psi`, set `height_limit` to
`ceil(log2(psi))` when it was unset, build `num_trees` trees from random
subsamples, store `psi`, and return the updated forest with the final
generator state.  `ceil(log2 psi)` is `Nat.clog 2 psi` (the two agree on
every `psi ≥ 1`; see `natClog_eq_ceil_logb`).  The model covers the domain
where the resolved `psi` is a non-negative integer — a non-integral `psi`
makes the source raise a `TypeError` at the slice `[:psi]`, and a negative
one cannot arise from the documented configurations — and, when
`height_limit` is unset, where `psi ≥ 1`, since `np.log2(0)` leaves the
reals; outside that domain the model returns `none`. -/
def IForest.fit [FloorRing α] (f : IForest α) (s : Rng α) (X : List (List α)) :
    Option (IForest α × Rng α) :=
  let m := X.length
  let psiResolved := resolvePsi f.subsample_size m
  if 0 ≤ psiResolved ∧ ((⌈psiResolved⌉ : ℤ) : α) = psiResolved then
    let psi := (⌈psiResolved⌉ : ℤ).toNat
    match f.height_limit with
    | some hl =>
      let bt := buildTrees X psi hl f.num_trees s
      some ({ f with trees := bt.1, height_limit := some hl, psi := some psi }, bt.2)
    | none =>
      if psi = 0 then none
      else
        let hl := Nat.clog 2 psi
        let bt := buildTrees X psi hl f.num_trees s
        some ({ f with trees := bt.1, height_limit := some hl, psi := some psi }, bt.2)
  else none

/-- Model of `IForest.predict(X)`: for each query row, sum `path_length +
_adjustment(leaf_size)` over the trees, then `2 ** (-(sum / len(trees) /
_adjustment(psi)))`.  A forest on which `fit` has not set `psi` has no
`self.psi` attribute (the source raises `AttributeError`), modelled as
`none`. -/
noncomputable def IForest.predict (f : IForest ℝ) (X : List (List ℝ)) :
    Option (List ℝ) :=
  match f.psi with
  | none => none
  | some psi =>
    some (X.map (fun x =>
      let total := (f.trees.map (fun t =>
        ((path_length_and_leaf_size t x).1 : ℝ) +
          _adjustment (path_length_and_leaf_size t x).2)).sum
      (2 : ℝ) ^ (-(total / (f.trees.length : ℝ) / _adjustment psi))))

/-! ### Basic facts about the embedded operations -/

/-- Unfolding `ITree._grow` in the terminating case: reaching the height
limit or having at most one row yields a leaf of size the row count, with
the generator untouched. -/
lemma grow_of_stop {s : Rng α} {X : List (List α)} {ch hl : ℕ}
    (h : hl ≤ ch ∨ X.length ≤ 1) :
    ITree.grow s X ch hl = (ITreeNode.leaf X.length, s) := by
  rw [ITree.grow]
  exact dif_pos h

/-- Unfolding `ITree._grow` in the splitting case, every intermediate of the
source spelled out: the attribute drawn by `randint`, the column extremes,
the threshold, the two filtered partitions, and the two children grown in
order at depth `current_height + 1`. -/
lemma grow_of_split {s : Rng α} {X : List (List α)} {ch hl : ℕ}
    (h1 : ch < hl) (h2 : 2 ≤ X.length) :
    ITree.grow s X ch hl =
      (let n := (X.headD []).length
       let split_att := (Rng.randint n s).1
       let s1 := (Rng.randint n s).2
       let a := colMin X split_att
       let b := colMax X split_att
       let u := (Rng.random_sample s1).1
       let s2 := (Rng.random_sample s1).2
       let split_value := a + (b - a) * u
       let X_left := X.filter (fun r => r.getD split_att 0 < split_value)
       let X_right := X.filter (fun r => split_value ≤ r.getD split_att 0)
       let gl := ITree.grow s2 X_left (ch + 1) hl
       let gr := ITree.grow gl.2 X_right (ch + 1) hl
       (ITreeNode.node split_att split_value gl.1 gr.1, gr.2)) := by
  rw [ITree.grow]
  exact dif_neg (by omega)

/-- A fold of `min` stays below the matching fold of `max` when the starting
accumulators are ordered. -/
lemma foldl_min_le_foldl_max (f : List α → α) :
    ∀ (l : List (List α)) (a b : α), a ≤ b →
      l.foldl (fun acc r => min acc (f r)) a ≤ l.foldl (fun acc r => max acc (f r)) b := by
  intro l
  induction l with
  | nil => intro a b hab; simpa using hab
  | cons x xs ih =>
    intro a b hab
    exact ih _ _ (le_trans (min_le_left _ _) (le_trans hab (le_max_left _ _)))

/-- The column minimum never exceeds the column maximum (on a non-empty
matrix, the only case the source evaluates them in). -/
lemma colMin_le_colMax {X : List (List α)} (hX : X ≠ []) (j : ℕ) :
    colMin X j ≤ colMax X j := by
  match X with
  | [] => exact absurd rfl hX
  | r :: rs => exact foldl_min_le_foldl_max _ rs _ _ le_rfl

/-- Folding `min` over a list whose projections all equal the accumulator
leaves the accumulator unchanged. -/
lemma foldl_min_const (f : List α → α) (v : α) :
    ∀ (l : List (List α)), (∀ r ∈ l, f r = v) →
      l.foldl (fun acc r => min acc (f r)) v = v := by
  intro l
  induction l with
  | nil => intro _; rfl
  | cons x xs ih =>
    intro hall
    have hx : f x = v := hall x (List.mem_cons_self _ _)
    have : min v (f x) = v := by rw [hx, min_self]
    rw [List.foldl_cons, this]
    exact ih (fun r hr => hall r (List.mem_cons_of_mem _ hr))

/-- Folding `max` over a list whose projections all equal the accumulator
leaves the accumulator unchanged. -/
lemma foldl_max_const (f : List α → α) (v : α) :
    ∀ (l : List (List α)), (∀ r ∈ l, f r = v) →
      l.foldl (fun acc r => max acc (f r)) v = v := by
  intro l
  induction l with
  | nil => intro _; rfl
  | cons x xs ih =>
    intro hall
    have hx : f x = v := hall x (List.mem_cons_self _ _)
    have : max v (f x) = v := by rw [hx, max_self]
    rw [List.foldl_cons, this]
    exact ih (fun r hr => hall r (List.mem_cons_of_mem _ hr))

/-- When every row of a non-empty matrix carries the value `v` in column
`j`, the column minimum is `v`. -/
lemma colMin_const {X : List (List α)} {j : ℕ} {v : α} (hX : X ≠ [])
    (hv : ∀ r ∈ X, r.getD j 0 = v) : colMin X j = v := by
  match X with
  | [] => exact absurd rfl hX
  | r :: rs =>
    have hr : r.getD j 0 = v := hv r (List.mem_cons_self _ _)
    show rs.foldl (fun acc row => min acc (row.getD j 0)) (r.getD j 0) = v
    rw [hr]
    exact foldl_min_const _ _ rs (fun q hq => hv q (List.mem_cons_of_mem _ hq))

/-- When every row of a non-empty matrix carries the value `v` in column
`j`, the column maximum is `v`. -/
lemma colMax_const {X : List (List α)} {j : ℕ} {v : α} (hX : X ≠ [])
    (hv : ∀ r ∈ X, r.getD j 0 = v) : colMax X j = v := by
  match X with
  | [] => exact absurd rfl hX
  | r :: rs =>
    have hr : r.getD j 0 = v := hv r (List.mem_cons_self _ _)
    show rs.foldl (fun acc row => max acc (row.getD j 0)) (r.getD j 0) = v
    rw [hr]
    exact foldl_max_const _ _ rs (fun q hq => hv q (List.mem_cons_of_mem _ hq))

/-- The two partitions of the split (`< split_value` and `>= split_value`)
together account for every row: the comparisons are mutually exclusive and
exhaustive. -/
lemma length_filter_lt_add_length_filter_ge (X : List (List α)) (j : ℕ) (v : α) :
    (X.filter (fun r => r.getD j 0 < v)).length +
      (X.filter (fun r => v ≤ r.getD j 0)).length = X.length := by
  induction X with
  | nil => rfl
  | cons r rs ih =>
    by_cases h : r.getD j 0 < v
    · have h2 : ¬ v ≤ r.getD j 0 := not_le.mpr h
      simp only [List.filter_cons, decide_eq_true h, decide_eq_false h2,
        Bool.false_eq_true, ite_true, ite_false, List.length_cons]
      omega
    · have h2 : v ≤ r.getD j 0 := not_lt.mp h
      simp only [List.filter_cons, decide_eq_false h, decide_eq_true h2,
        Bool.false_eq_true, ite_true, ite_false, List.length_cons]
      omega

/-- The Euler–Mascheroni constant at the numerical precision both the spec
and the source fix it (`γ ≈ 0.5772156649`). -/
noncomputable def eulerGammaTenDigits : ℝ := 0.5772156649

/-- The expected-path-length estimator exactly as the spec words it:
`c(n) = 0` for `n ≤ 1`, `c(2) = 1`, otherwise
`2·(ln(n−1) + γ) − 2·(n−1)/n` — with `n − 1` the integer predecessor of the
non-negative integer argument. -/
noncomputable def c_spec (n : ℕ) : ℝ :=
  if n ≤ 1 then 0
  else if n = 2 then 1
  else 2 * (Real.log ((n - 1 : ℕ) : ℝ) + eulerGammaTenDigits) -
    2 * ((n - 1 : ℕ) : ℝ) / (n : ℝ)

lemma _adjustment_of_le_one {n : ℕ} (h : n ≤ 1) : _adjustment n = 0 := by
  rw [_adjustment, if_pos h]

lemma _adjustment_two : _adjustment 2 = 1 := by
  rw [_adjustment]
  norm_num

lemma _adjustment_of_three_le {n : ℕ} (h : 3 ≤ n) :
    _adjustment n =
      2 * (Real.log ((n : ℝ) - 1) + 0.5772156649) - 2 * ((n : ℝ) - 1) / (n : ℝ) := by
  rw [_adjustment, if_neg (by omega), if_neg (by omega)]

/-- For `n ≥ 2` the estimator is strictly positive: `c(2) = 1`, and for
`n ≥ 3` the logarithmic term dominates since `ln(n−1) ≥ ln 2 > 0.693` while
`2(n−1)/n < 2`. -/
lemma _adjustment_pos {n : ℕ} (h : 2 ≤ n) : 0 < _adjustment n := by
  rcases eq_or_lt_of_le h with h2 | h3
  · rw [← h2, _adjustment_two]
    norm_num
  · have h3' : 3 ≤ n := h3
    rw [_adjustment_of_three_le h3']
    have hn3 : (3 : ℝ) ≤ (n : ℝ) := by exact_mod_cast h3'
    have hlog2 : Real.log 2 ≤ Real.log ((n : ℝ) - 1) :=
      Real.log_le_log (by norm_num) (by linarith)
    have hd9 : (0.6931471803 : ℝ) < Real.log 2 := Real.log_two_gt_d9
    have hfrac : 2 * ((n : ℝ) - 1) / (n : ℝ) < 2 := by
      rw [div_lt_iff₀ (by linarith)]
      linarith
    linarith

/-- The estimator is never negative. -/
lemma _adjustment_nonneg (n : ℕ) : 0 ≤ _adjustment n := by
  by_cases h : n ≤ 1
  · rw [_adjustment_of_le_one h]
  · exact le_of_lt (_adjustment_pos (by omega))

/-- The function `Nat.clog 2`, the model of `np.ceil(np.log2 _)` used in `IForest.fit`,
agrees with the real ceiling of the base-2 logarithm on every natural
number. -/
lemma natClog_eq_ceil_logb (psi : ℕ) :
    ((Nat.clog 2 psi : ℕ) : ℤ) = ⌈Real.logb 2 (psi : ℝ)⌉ := by
  have h := @Real.ceil_logb_natCast 2 (psi : ℝ) (by positivity)
  rw [Int.clog_natCast] at h
  simpa using h.symm

/-- Evaluating the walk at an internal node: one decision is counted and the
walk continues in the child selected by `x[split_attribute] >= split_value`. -/
lemma path_node (att : ℕ) (v : α) (l r : ITreeNode α) (x : List α) :
    path_length_and_leaf_size (ITreeNode.node att v l r) x =
      (if v ≤ x.getD att 0 then
        ((path_length_and_leaf_size r x).1 + 1, (path_length_and_leaf_size r x).2)
      else
        ((path_length_and_leaf_size l x).1 + 1, (path_length_and_leaf_size l x).2)) := rfl

/-- A path through an internal node is one longer than a path through one of
its children. -/
lemma path_node_le {hl' : ℕ} {l r : ITreeNode α} (att : ℕ) (v : α) (x : List α)
    (hL : (path_length_and_leaf_size l x).1 ≤ hl')
    (hR : (path_length_and_leaf_size r x).1 ≤ hl') :
    (path_length_and_leaf_size (ITreeNode.node att v l r) x).1 ≤ hl' + 1 := by
  rw [path_node]
  split
  · simpa using hR
  · simpa using hL

/-- Every query walk through a grown subtree makes at most
`height_limit - current_height` decisions (fuel-indexed induction following
the recursion of `ITree._grow`). -/
lemma grow_path_le_aux (hl : ℕ) :
    ∀ d ch : ℕ, hl - ch ≤ d → ∀ (s : Rng α) (X : List (List α)) (x : List α),
      (path_length_and_leaf_size (ITree.grow s X ch hl).1 x).1 ≤ hl - ch := by
  intro d
  induction d with
  | zero =>
    intro ch hch s X x
    rw [grow_of_stop (Or.inl (by omega))]
    simp [path_length_and_leaf_size]
  | succ d ih =>
    intro ch hch s X x
    by_cases h : hl ≤ ch ∨ X.length ≤ 1
    · rw [grow_of_stop h]
      simp [path_length_and_leaf_size]
    · push_neg at h
      rw [grow_of_split h.1 (by omega)]
      have key : ∀ (s' : Rng α) (Y : List (List α)),
          (path_length_and_leaf_size (ITree.grow s' Y (ch + 1) hl).1 x).1 ≤
            hl - (ch + 1) :=
        fun s' Y => ih (ch + 1) (by omega) s' Y x
      refine le_trans (path_node_le _ _ _ (key _ _) (key _ _)) (by omega)

/-- Row conservation through a built subtree: the tree's leaf sizes account
for exactly the rows handed to each node — at a leaf, the stored size is the
row count that reached it; at an internal node, the rows that reached it
split into the counts passed to its two children with nothing dropped or
duplicated. -/
def Conserves : ITreeNode α → ℕ → Prop
  | ITreeNode.leaf m, rows => m = rows
  | ITreeNode.node _ _ l r, rows =>
      ∃ rl rr, rl + rr = rows ∧ Conserves l rl ∧ Conserves r rr

/-- Every subtree grown from a row partition conserves that partition's row
count (fuel-indexed induction following the recursion of `ITree._grow`). -/
lemma grow_conserves_aux (hl : ℕ) :
    ∀ d ch : ℕ, hl - ch ≤ d → ∀ (s : Rng α) (X : List (List α)),
      Conserves (ITree.grow s X ch hl).1 X.length := by
  intro d
  induction d with
  | zero =>
    intro ch hch s X
    rw [grow_of_stop (Or.inl (by omega))]
    exact rfl
  | succ d ih =>
    intro ch hch s X
    by_cases h : hl ≤ ch ∨ X.length ≤ 1
    · rw [grow_of_stop h]
      exact rfl
    · push_neg at h
      rw [grow_of_split h.1 (by omega)]
      exact ⟨_, _, length_filter_lt_add_length_filter_ge X _ _,
        ih (ch + 1) (by omega) _ _, ih (ch + 1) (by omega) _ _⟩

/-! ### Claim theorems -/

/-- C2: the expected-path-length estimator `_adjustment` agrees with the
spec's reference definition of `c` on every non-negative integer `n`:
`c(n) = 0` for `n ≤ 1`, `c(2) = 1`, and otherwise
`c(n) = 2·(ln(n−1) + γ) − 2·(n−1)/n`, with `γ` the Euler–Mascheroni
constant at the precision both spec and source fix it (`0.5772156649`). -/
theorem adjustment_matches_spec_c : ∀ n : ℕ, _adjustment n = c_spec n := by
  intro n
  by_cases h1 : n ≤ 1
  · rw [_adjustment_of_le_one h1, c_spec, if_pos h1]
  · by_cases h2 : n = 2
    · subst h2
      rw [_adjustment_two, c_spec]
      norm_num
    · have h3 : 3 ≤ n := by omega
      rw [_adjustment_of_three_le h3, c_spec, if_neg h1, if_neg h2]
      have hc : ((n - 1 : ℕ) : ℝ) = (n : ℝ) - 1 := by
        have h1n : 1 ≤ n := by omega
        push_cast [h1n]
        ring
      rw [hc, eulerGammaTenDigits]

/-- C5: for a tree built by `ITree._grow` from the root (depth `0`) with
height limit `h`, every path-length query returns at most `h`: the walk of
`path_length_and_leaf_size` makes at most `h` decisions on any query row. -/
theorem path_length_le_height_limit (s : Rng α) (X : List (List α)) (h : ℕ)
    (x : List α) :
    (path_length_and_leaf_size (ITree.grow s X 0 h).1 x).1 ≤ h := by
  simpa using grow_path_le_aux h h 0 (by omega) s X x

/-- C7: row conservation.  The tree grown from any row partition
`Conserves` that partition's row count: at every internal node created
during construction, the rows passed to the left child plus the rows passed
to the right child are exactly the rows that reached the node — and the
underlying fact about the split itself, that the `< split_value` and
`>= split_value` partitions of any rows under any attribute and threshold
have lengths summing to the original row count (so nothing is dropped or
duplicated even when one partition is empty, as in the degenerate
constant-feature case). -/
theorem grow_conserves_rows (s : Rng α) (X : List (List α)) (ch hl : ℕ) :
    Conserves (ITree.grow s X ch hl).1 X.length ∧
    ∀ (j : ℕ) (v : α),
      (X.filter (fun r => r.getD j 0 < v)).length +
        (X.filter (fun r => v ≤ r.getD j 0)).length = X.length :=
  ⟨grow_conserves_aux hl (hl - ch) ch le_rfl s X,
   fun j v => length_filter_lt_add_length_filter_ge X j v⟩

/-- A threshold `a + (b−a)·u` drawn with `u ∈ [0, 1)` lies in `[a, b)` when
`a < b` (and is at least `a` always, given `a ≤ b`). -/
lemma threshold_bounds {a b u : α} (hab : a ≤ b) (hu : 0 ≤ u) (hu1 : u < 1) :
    a ≤ a + (b - a) * u ∧ (a < b → a + (b - a) * u < b) := by
  have hba : 0 ≤ b - a := sub_nonneg.mpr hab
  constructor
  · have : 0 ≤ (b - a) * u := mul_nonneg hba hu
    linarith
  · intro hlt
    have : (b - a) * u < (b - a) * 1 := mul_lt_mul_of_pos_left hu1 (by linarith)
    linarith

/-- When the column extremes coincide, the drawn threshold is that common
value — whatever the generator's uniform draw. -/
lemma threshold_of_degenerate {a b u : α} (h : a = b) : a + (b - a) * u = a := by
  rw [h]
  ring

/-- The splitting step of the construction recursion, spelled as the spec
describes it: the attribute drawn by `randint` over the `n` columns (and in
range whenever `n > 0`), the column extremes `a ≤ b`, the threshold
`a + (b−a)·u` lying in `[a, b)` for a generator draw `u ∈ [0, 1)` (and equal
to `a` when `a = b`), the partition into strict-below and at-least-threshold
rows, and the two children grown in order at depth `current_height + 1`
against the threaded generator. -/
def growSplitStep (s : Rng α) (X : List (List α)) (ch hl : ℕ) : Prop :=
  let n := (X.headD []).length
  let split_att := (Rng.randint n s).1
  let s1 := (Rng.randint n s).2
  let a := colMin X split_att
  let b := colMax X split_att
  let u := (Rng.random_sample s1).1
  let s2 := (Rng.random_sample s1).2
  let split_value := a + (b - a) * u
  let X_left := X.filter (fun r => r.getD split_att 0 < split_value)
  let X_right := X.filter (fun r => split_value ≤ r.getD split_att 0)
  let gl := ITree.grow s2 X_left (ch + 1) hl
  let gr := ITree.grow gl.2 X_right (ch + 1) hl
  ITree.grow s X ch hl = (ITreeNode.node split_att split_value gl.1 gr.1, gr.2) ∧
  (0 < n → split_att < n) ∧
  a ≤ b ∧
  (0 ≤ u → u < 1 → a ≤ split_value ∧ (a < b → split_value < b)) ∧
  (a = b → split_value = a)

/-- C3: `ITree._grow` follows exactly the specified recursion — a leaf of
size the row count once the height limit is reached or at most one row
remains, and otherwise the splitting step `growSplitStep`: draw a feature
index among the `n` columns, take the column extremes, draw the threshold in
`[a, b)`, partition into `< threshold` and `>= threshold` rows, and recurse
on both partitions at depth `current_height + 1`. -/
theorem grow_follows_spec_recursion (s : Rng α) (X : List (List α)) (ch hl : ℕ) :
    ((hl ≤ ch ∨ X.length ≤ 1) →
      ITree.grow s X ch hl = (ITreeNode.leaf X.length, s)) ∧
    (ch < hl → 2 ≤ X.length → growSplitStep s X ch hl) := by
  constructor
  · exact fun h => grow_of_stop h
  · intro h1 h2
    have hX : X ≠ [] := by
      intro he
      rw [he] at h2
      simp at h2
    have hab : colMin X (Rng.randint (X.headD []).length s).1 ≤
        colMax X (Rng.randint (X.headD []).length s).1 :=
      colMin_le_colMax hX _
    exact ⟨grow_of_split h1 h2, fun hn => Nat.mod_lt _ hn, hab,
      fun hu hu1 => threshold_bounds hab hu hu1,
      fun he => threshold_of_degenerate he⟩

/-- A generator state over ℚ whose uniform draws are all `1/2` and whose
integer draws are all `0`, used to evaluate the construction concretely. -/
def rngHalf : Rng ℚ := ⟨fun _ => 0, fun _ => 1 / 2, fun _ _ => [], 0⟩

/-- A two-row one-column sample with distinct feature values. -/
def Xpair : List (List ℚ) := [[0], [1]]

theorem grow_follows_spec_recursion_witness :
    (0 < 1 ∧ 2 ≤ Xpair.length) ∧ growSplitStep rngHalf Xpair 0 1 :=
  ⟨⟨by decide, by decide⟩,
   (grow_follows_spec_recursion rngHalf Xpair 0 1).2 (by decide) (by decide)⟩

/-- The degenerate constant-feature split, spelled out: the column extremes
coincide, the drawn threshold equals the shared value, the strict-below
partition is empty while the at-least partition keeps every row, and the
node is still built with both children grown at depth `current_height + 1`
(the left from the empty partition, the right from all rows) — a no-op
split consuming one depth unit, with no failure. -/
def growDegenerateStep (s : Rng α) (X : List (List α)) (ch hl : ℕ) (v : α) : Prop :=
  let n := (X.headD []).length
  let split_att := (Rng.randint n s).1
  let s1 := (Rng.randint n s).2
  let u := (Rng.random_sample s1).1
  let s2 := (Rng.random_sample s1).2
  let a := colMin X split_att
  let b := colMax X split_att
  let split_value := a + (b - a) * u
  let gl := ITree.grow s2 [] (ch + 1) hl
  let gr := ITree.grow gl.2 X (ch + 1) hl
  a = b ∧
  split_value = v ∧
  X.filter (fun r => r.getD split_att 0 < split_value) = [] ∧
  X.filter (fun r => split_value ≤ r.getD split_att 0) = X ∧
  ITree.grow s X ch hl = (ITreeNode.node split_att split_value gl.1 gr.1, gr.2)

/-- C6: whenever every row of the current partition carries the same value
`v` on the drawn attribute (so `a == b`), the split is the degenerate no-op
of `growDegenerateStep`: threshold `v`, empty left partition, right
partition keeping all rows, children still grown one depth unit deeper, and
no failure (the model is total here, as the source raises nothing). -/
theorem grow_degenerate_constant_feature (s : Rng α) (X : List (List α))
    (ch hl : ℕ) (v : α) (h1 : ch < hl) (h2 : 2 ≤ X.length)
    (hv : ∀ r ∈ X, r.getD ((Rng.randint (X.headD []).length s).1) 0 = v) :
    growDegenerateStep s X ch hl v := by
  have hX : X ≠ [] := by
    intro he
    rw [he] at h2
    simp at h2
  have ha : colMin X ((Rng.randint (X.headD []).length s).1) = v := colMin_const hX hv
  have hb : colMax X ((Rng.randint (X.headD []).length s).1) = v := colMax_const hX hv
  have heq : colMin X ((Rng.randint (X.headD []).length s).1) =
      colMax X ((Rng.randint (X.headD []).length s).1) := by rw [ha, hb]
  have ht : colMin X ((Rng.randint (X.headD []).length s).1) +
      (colMax X ((Rng.randint (X.headD []).length s).1) -
        colMin X ((Rng.randint (X.headD []).length s).1)) *
      (Rng.random_sample (Rng.randint (X.headD []).length s).2).1 = v := by
    rw [ha, hb]
    ring
  have hfL : X.filter (fun r => r.getD ((Rng.randint (X.headD []).length s).1) 0 <
      colMin X ((Rng.randint (X.headD []).length s).1) +
        (colMax X ((Rng.randint (X.headD []).length s).1) -
          colMin X ((Rng.randint (X.headD []).length s).1)) *
        (Rng.random_sample (Rng.randint (X.headD []).length s).2).1) = [] := by
    rw [List.filter_eq_nil_iff]
    intro r hr
    rw [decide_eq_true_eq, hv r hr, ht]
    exact lt_irrefl v
  have hfR : X.filter (fun r =>
      colMin X ((Rng.randint (X.headD []).length s).1) +
        (colMax X ((Rng.randint (X.headD []).length s).1) -
          colMin X ((Rng.randint (X.headD []).length s).1)) *
        (Rng.random_sample (Rng.randint (X.headD []).length s).2).1 ≤
      r.getD ((Rng.randint (X.headD []).length s).1) 0) = X := by
    rw [List.filter_eq_self]
    intro r hr
    rw [decide_eq_true_eq, hv r hr, ht]
  refine ⟨heq, ht, hfL, hfR, ?_⟩
  rw [grow_of_split h1 h2]
  simp only [hfL, hfR]

/-- A two-row one-column sample whose single feature is constant. -/
def Xconst : List (List ℚ) := [[1], [1]]

theorem grow_degenerate_constant_feature_witness :
    (0 < 1 ∧ 2 ≤ Xconst.length ∧
      ∀ r ∈ Xconst,
        r.getD ((Rng.randint (Xconst.headD []).length rngHalf).1) 0 = (1 : ℚ)) ∧
    growDegenerateStep rngHalf Xconst 0 1 (1 : ℚ) :=
  ⟨⟨by decide, by decide, by decide⟩,
   grow_degenerate_constant_feature rngHalf Xconst 0 1 1 (by decide) (by decide)
     (by decide)⟩

/-- C4: subsample-size resolution.  For any dataset row count `m`: a
configured `subsample_size ≤ 1.0` resolves to `psi = ceil(subsample_size ·
m)`, and any other value is taken as `psi` directly, uncast and unvalidated.
Concretely, `subsample_size = 0.25` with `m = 100` gives `psi = 25`, and
`subsample_size = 10` gives `psi = 10` for every `m`, in particular every
`m ≥ 10`. -/
theorem resolvePsi_spec :
    (∀ (ss : ℚ) (m : ℕ),
      (ss ≤ 1 → resolvePsi ss m = ((⌈ss * (m : ℚ)⌉ : ℤ) : ℚ)) ∧
      (1 < ss → resolvePsi ss m = ss)) ∧
    resolvePsi (0.25 : ℚ) 100 = 25 ∧
    ∀ m : ℕ, 10 ≤ m → resolvePsi (10 : ℚ) m = 10 := by
  refine ⟨fun ss m => ⟨fun h => ?_, fun h => ?_⟩, ?_, fun m _ => ?_⟩
  · rw [resolvePsi, if_pos h]
  · rw [resolvePsi, if_neg (not_le.mpr h)]
  · rw [resolvePsi, if_pos (by norm_num)]
    norm_num
  · rw [resolvePsi, if_neg (by norm_num)]

theorem resolvePsi_spec_witness :
    ((1 : ℚ) ≤ 1 ∧
      resolvePsi (1 : ℚ) 3 = ((⌈(1 : ℚ) * ((3 : ℕ) : ℚ)⌉ : ℤ) : ℚ)) ∧
    (1 < (7 : ℚ) ∧ resolvePsi (7 : ℚ) 5 = 7) ∧
    (10 ≤ 12 ∧ resolvePsi (10 : ℚ) 12 = 10) :=
  ⟨⟨le_refl 1, (resolvePsi_spec.1 1 3).1 (le_refl 1)⟩,
   ⟨by decide, (resolvePsi_spec.1 7 5).2 (by decide)⟩,
   ⟨by decide, resolvePsi_spec.2.2 12 (by decide)⟩⟩

/-- The guard of the modelled `fit` domain: the resolved subsample size is a
non-negative integer. -/
def fitGuard [FloorRing α] (f : IForest α) (X : List (List α)) : Prop :=
  0 ≤ resolvePsi f.subsample_size X.length ∧
    ((⌈resolvePsi f.subsample_size X.length⌉ : ℤ) : α) =
      resolvePsi f.subsample_size X.length

/-- The resolved subsample size as the natural number used for slicing,
`np.log2`, and the stored `self.psi`. -/
def psiNat [FloorRing α] (f : IForest α) (X : List (List α)) : ℕ :=
  (⌈resolvePsi f.subsample_size X.length⌉ : ℤ).toNat

/-- Unfolding `fit` outside the modelled domain. -/
lemma fit_of_not_guard [FloorRing α] {f : IForest α} {s : Rng α}
    {X : List (List α)} (hg : ¬ fitGuard f X) : f.fit s X = none := by
  rw [IForest.fit]
  exact if_neg hg

/-- Unfolding `fit` when a `height_limit` was configured: trees are built
with it, and it is stored back unchanged — in particular it is not
recomputed from this call's `psi`. -/
lemma fit_of_height_some [FloorRing α] {f : IForest α} {hl : ℕ}
    (hHL : f.height_limit = some hl) {s : Rng α} {X : List (List α)}
    (hg : fitGuard f X) :
    f.fit s X = some
      ({ f with trees := (buildTrees X (psiNat f X) hl f.num_trees s).1,
                height_limit := some hl,
                psi := some (psiNat f X) },
       (buildTrees X (psiNat f X) hl f.num_trees s).2) := by
  rw [IForest.fit, hHL]
  exact if_pos hg

/-- Unfolding `fit` when no `height_limit` was configured and the resolved
`psi` is positive: the height limit is computed as `ceil(log2 psi)` =
`Nat.clog 2 psi` and stored. -/
lemma fit_of_height_none [FloorRing α] {f : IForest α}
    (hHL : f.height_limit = none) {s : Rng α} {X : List (List α)}
    (hg : fitGuard f X) (hpsi : psiNat f X ≠ 0) :
    f.fit s X = some
      ({ f with trees := (buildTrees X (psiNat f X) (Nat.clog 2 (psiNat f X))
                  f.num_trees s).1,
                height_limit := some (Nat.clog 2 (psiNat f X)),
                psi := some (psiNat f X) },
       (buildTrees X (psiNat f X) (Nat.clog 2 (psiNat f X)) f.num_trees s).2) := by
  rw [IForest.fit, hHL]
  exact (if_pos hg).trans (if_neg hpsi)

/-- Unfolding `fit` when no `height_limit` was configured and the resolved
`psi` is zero (outside the modelled real-log domain). -/
lemma fit_of_height_none_psi_zero [FloorRing α] {f : IForest α}
    (hHL : f.height_limit = none) {s : Rng α} {X : List (List α)}
    (hpsi : psiNat f X = 0) : f.fit s X = none := by
  by_cases hg : fitGuard f X
  · rw [IForest.fit, hHL]
    exact (if_pos hg).trans (if_pos hpsi)
  · exact fit_of_not_guard hg

/-- Any successful `fit` stores a resolved `height_limit`. -/
lemma fit_height_some [FloorRing α] {f : IForest α} {s : Rng α}
    {X : List (List α)} {g : IForest α} {s' : Rng α}
    (hfit : f.fit s X = some (g, s')) : ∃ hl, g.height_limit = some hl := by
  by_cases hg : fitGuard f X
  · rcases hHL : f.height_limit with _ | hl0
    · by_cases hpsi : psiNat f X = 0
      · rw [fit_of_height_none_psi_zero hHL hpsi] at hfit
        exact absurd hfit (by simp)
      · rw [fit_of_height_none hHL hg hpsi] at hfit
        refine ⟨Nat.clog 2 (psiNat f X), ?_⟩
        have h2 := Option.some.inj hfit
        injection h2 with h1 _
        rw [← h1]
    · rw [fit_of_height_some hHL hg] at hfit
      refine ⟨hl0, ?_⟩
      have h2 := Option.some.inj hfit
      injection h2 with h1 _
      rw [← h1]
  · rw [fit_of_not_guard hg] at hfit
    exact absurd hfit (by simp)

/-- A `fit` call on a forest with a stored `height_limit` keeps that stored
value, whatever the data. -/
lemma fit_keeps_height [FloorRing α] {f : IForest α} {h : ℕ}
    (hh : f.height_limit = some h) {s : Rng α} {X : List (List α)}
    {g : IForest α} {s' : Rng α} (hfit : f.fit s X = some (g, s')) :
    g.height_limit = some h := by
  by_cases hg : fitGuard f X
  · rw [fit_of_height_some hh hg] at hfit
    have h2 := Option.some.inj hfit
    injection h2 with h1 _
    rw [← h1]
  · rw [fit_of_not_guard hg] at hfit
    exact absurd hfit (by simp)

/-- A `fit` call on a forest with no stored `height_limit` stores
`ceil(log2 psi)` computed from this call's resolved `psi`. -/
lemma fit_sets_height_of_none [FloorRing α] {f : IForest α}
    (hh : f.height_limit = none) {s : Rng α} {X : List (List α)}
    {g : IForest α} {s' : Rng α} (hfit : f.fit s X = some (g, s')) :
    g.height_limit = some (Nat.clog 2 (psiNat f X)) := by
  by_cases hg : fitGuard f X
  · by_cases hpsi : psiNat f X = 0
    · rw [fit_of_height_none_psi_zero hh hpsi] at hfit
      exact absurd hfit (by simp)
    · rw [fit_of_height_none hh hg hpsi] at hfit
      have h2 := Option.some.inj hfit
      injection h2 with h1 _
      rw [← h1]
  · rw [fit_of_not_guard hg] at hfit
    exact absurd hfit (by simp)

/-- C9: `height_limit` caching.  If `height_limit` is unset, a successful
`fit` stores `ceil(log2 psi)` — `Nat.clog 2 psi`, which equals
`⌈log₂ psi⌉` over the reals (last conjunct) — computed from that call's
resolved `psi`; if a value is already stored (configured, or set by an
earlier `fit`), `fit` keeps it unchanged; hence any second `fit`, on any
data, leaves the stored `height_limit` exactly as the first call left it,
without recomputation. -/
theorem fit_height_limit_caching [FloorRing α] (f : IForest α) (s : Rng α)
    (X : List (List α)) :
    (f.height_limit = none → ∀ (g : IForest α) (s' : Rng α),
      f.fit s X = some (g, s') →
      g.height_limit = some (Nat.clog 2 (psiNat f X))) ∧
    (∀ h : ℕ, f.height_limit = some h → ∀ (g : IForest α) (s' : Rng α),
      f.fit s X = some (g, s') → g.height_limit = some h) ∧
    (∀ (g : IForest α) (s' : Rng α), f.fit s X = some (g, s') →
      ∀ (s2 : Rng α) (Y : List (List α)) (g2 : IForest α) (s2' : Rng α),
        g.fit s2 Y = some (g2, s2') → g2.height_limit = g.height_limit) ∧
    (∀ q : ℕ, ((Nat.clog 2 q : ℕ) : ℤ) = ⌈Real.logb 2 (q : ℝ)⌉) := by
  refine ⟨fun hh g s' hfit => fit_sets_height_of_none hh hfit,
    fun h hh g s' hfit => fit_keeps_height hh hfit,
    fun g s' hfit s2 Y g2 s2' hfit2 => ?_,
    fun q => natClog_eq_ceil_logb q⟩
  obtain ⟨hl', hgl⟩ := fit_height_some hfit
  rw [fit_keeps_height hgl hfit2, hgl]

theorem fit_height_limit_caching_witness :
    (IForest.mk 0 (2 : ℚ) [] none none).height_limit = none ∧
    (IForest.mk 0 (2 : ℚ) [] none none).fit rngHalf [[0]] =
      some (IForest.mk 0 (2 : ℚ) []
              (some (Nat.clog 2 (psiNat (IForest.mk 0 (2 : ℚ) [] none none) [[0]])))
              (some (psiNat (IForest.mk 0 (2 : ℚ) [] none none) [[0]])),
            rngHalf) ∧
    (IForest.mk 0 (2 : ℚ) []
        (some (Nat.clog 2 (psiNat (IForest.mk 0 (2 : ℚ) [] none none) [[0]])))
        (some (psiNat (IForest.mk 0 (2 : ℚ) [] none none) [[0]]))).height_limit =
      some (Nat.clog 2 (psiNat (IForest.mk 0 (2 : ℚ) [] none none) [[0]])) :=
  ⟨rfl, rfl,
   (fit_height_limit_caching (IForest.mk 0 (2 : ℚ) [] none none) rngHalf
      [[0]]).1 rfl _ rngHalf rfl⟩

/-- C8: determinism.  `fit` and `predict` are functions of the seeded
generator state, the hyperparameters and the data alone: two runs from
equal generator states produce equal fitted forests — identical trees — and
identical scores.  The last conjunct exhibits the fixed build order: each
loop iteration draws its permutation and grows its tree from the state the
previous iteration left, so the trees consume the single shared generator
sequentially. -/
theorem fit_predict_deterministic (f : IForest ℝ) (s₁ s₂ : Rng ℝ)
    (X Q : List (List ℝ)) (hs : s₁ = s₂) :
    f.fit s₁ X = f.fit s₂ X ∧
    (f.fit s₁ X).map (fun p => p.1.trees) =
      (f.fit s₂ X).map (fun p => p.1.trees) ∧
    (f.fit s₁ X).map (fun p => p.1.predict Q) =
      (f.fit s₂ X).map (fun p => p.1.predict Q) ∧
    ∀ (psi hl count : ℕ) (s : Rng ℝ) (Y : List (List ℝ)),
      buildTrees Y psi hl (count + 1) s =
        ((ITree.grow (Rng.permutation Y.length s).2
            (((Rng.permutation Y.length s).1.take psi).map
              (fun i => Y.getD i [])) 0 hl).1 ::
          (buildTrees Y psi hl count
            (ITree.grow (Rng.permutation Y.length s).2
              (((Rng.permutation Y.length s).1.take psi).map
                (fun i => Y.getD i [])) 0 hl).2).1,
         (buildTrees Y psi hl count
            (ITree.grow (Rng.permutation Y.length s).2
              (((Rng.permutation Y.length s).1.take psi).map
                (fun i => Y.getD i [])) 0 hl).2).2) := by
  subst hs
  exact ⟨rfl, rfl, rfl, fun psi hl count s Y => rfl⟩

/-- A generator state over ℝ with all-zero streams. -/
def rngZeroR : Rng ℝ := ⟨fun _ => 0, fun _ => 0, fun _ _ => [], 0⟩

theorem fit_predict_deterministic_witness :
    rngZeroR = rngZeroR ∧
    (IForest.mk 0 (2 : ℝ) [] (some 1) none).fit rngZeroR [[0]] =
      (IForest.mk 0 (2 : ℝ) [] (some 1) none).fit rngZeroR [[0]] :=
  ⟨rfl,
   (fit_predict_deterministic (IForest.mk 0 (2 : ℝ) [] (some 1) none)
      rngZeroR rngZeroR [[0]] [] rfl).1⟩

/-- C1: on a fitted forest with resolved `psi ≥ 2` and at least one tree,
`predict` returns, for each query row in order, exactly
`2 ^ (−((Σ_trees (path_length + c(leaf_size))) / num_trees) / c(psi))`, and
every returned score is in `(0, 1]`: positive because the base `2` is
positive, and at most `1` because the exponent is the negation of a
non-negative mean of non-negative adjusted path lengths divided by the
non-negative `c(psi)`. -/
theorem predict_formula_and_score_range (f : IForest ℝ) (X : List (List ℝ))
    (p : ℕ) (hp : f.psi = some p) (hp2 : 2 ≤ p) (ht : f.trees ≠ []) :
    f.predict X = some (X.map (fun x =>
      (2 : ℝ) ^ (-((f.trees.map (fun t =>
          ((path_length_and_leaf_size t x).1 : ℝ) +
            _adjustment (path_length_and_leaf_size t x).2)).sum /
        (f.trees.length : ℝ) / _adjustment p)))) ∧
    ∀ ys, f.predict X = some ys → ∀ sc ∈ ys, 0 < sc ∧ sc ≤ 1 := by
  have heq : f.predict X = some (X.map (fun x =>
      (2 : ℝ) ^ (-((f.trees.map (fun t =>
          ((path_length_and_leaf_size t x).1 : ℝ) +
            _adjustment (path_length_and_leaf_size t x).2)).sum /
        (f.trees.length : ℝ) / _adjustment p)))) := by
    rw [IForest.predict, hp]
  refine ⟨heq, fun ys hys sc hsc => ?_⟩
  rw [heq] at hys
  rw [← Option.some.inj hys] at hsc
  obtain ⟨x, _, rfl⟩ := List.mem_map.mp hsc
  constructor
  · exact Real.rpow_pos_of_pos (by norm_num) _
  · apply Real.rpow_le_one_of_one_le_of_nonpos (by norm_num)
    rw [neg_nonpos]
    refine div_nonneg (div_nonneg ?_ (Nat.cast_nonneg _)) (_adjustment_nonneg p)
    refine List.sum_nonneg fun y hy => ?_
    obtain ⟨t, _, rfl⟩ := List.mem_map.mp hy
    exact add_nonneg (Nat.cast_nonneg _) (_adjustment_nonneg _)

theorem predict_formula_and_score_range_witness :
    (IForest.mk 1 (2 : ℝ) [ITreeNode.leaf 1] none (some 2)).psi = some 2 ∧
    2 ≤ 2 ∧
    (IForest.mk 1 (2 : ℝ) [ITreeNode.leaf 1] none (some 2)).trees ≠ [] ∧
    (IForest.mk 1 (2 : ℝ) [ITreeNode.leaf 1] none (some 2)).predict [] =
      some (([] : List (List ℝ)).map (fun x =>
        (2 : ℝ) ^ (-(((IForest.mk 1 (2 : ℝ) [ITreeNode.leaf 1] none
              (some 2)).trees.map (fun t =>
              ((path_length_and_leaf_size t x).1 : ℝ) +
                _adjustment (path_length_and_leaf_size t x).2)).sum /
          (((IForest.mk 1 (2 : ℝ) [ITreeNode.leaf 1] none
              (some 2)).trees.length : ℝ)) / _adjustment 2)))) :=
  ⟨rfl, by decide, List.cons_ne_nil _ _,
   (predict_formula_and_score_range
      (IForest.mk 1 (2 : ℝ) [ITreeNode.leaf 1] none (some 2)) [] 2
      rfl (by decide) (List.cons_ne_nil _ _)).1⟩

/-- C10: the normalization divisor in `predict` is unguarded.  On a forest
fitted with resolved `psi ≤ 1`, `_adjustment psi = 0` and `predict` still
divides the mean adjusted path length by it — the score expression is
evaluated with a zero divisor (real-field semantics; the source performs the
same division on floats), so the `(0, 1]` guarantee of C1 is stated only
under the precondition `psi ≥ 2`. -/
theorem predict_unguarded_zero_divisor (f : IForest ℝ) (X : List (List ℝ))
    (p : ℕ) (hp : f.psi = some p) (hp1 : p ≤ 1) :
    _adjustment p = 0 ∧
    f.predict X = some (X.map (fun x =>
      (2 : ℝ) ^ (-((f.trees.map (fun t =>
          ((path_length_and_leaf_size t x).1 : ℝ) +
            _adjustment (path_length_and_leaf_size t x).2)).sum /
        (f.trees.length : ℝ) / 0)))) := by
  have hz : _adjustment p = 0 := _adjustment_of_le_one hp1
  refine ⟨hz, ?_⟩
  have heq : f.predict X = some (X.map (fun x =>
      (2 : ℝ) ^ (-((f.trees.map (fun t =>
          ((path_length_and_leaf_size t x).1 : ℝ) +
            _adjustment (path_length_and_leaf_size t x).2)).sum /
        (f.trees.length : ℝ) / _adjustment p)))) := by
    rw [IForest.predict, hp]
  rw [heq, hz]

theorem predict_unguarded_zero_divisor_witness :
    (IForest.mk 0 (2 : ℝ) [] none (some 1)).psi = some 1 ∧
    (1 : ℕ) ≤ 1 ∧
    _adjustment 1 = 0 :=
  ⟨rfl, by decide,
   (predict_unguarded_zero_divisor (IForest.mk 0 (2 : ℝ) [] none (some 1))
      [] 1 rfl (by decide)).1⟩

end AnomDet
